import Mathlib

/-!
Verification of the semantic FAQ matching engine of the photo-assistant
repository (`src/faq/faq_handler.py`).

The Python class `FAQHandler` is shallowly embedded as follows.

* The JSON corpus document becomes the structure `FaqData` (a `categories`
  mapping in insertion order, plus a `metadata` block).  The embedding keeps
  the well-formed shape that `_get_default_faq_data` produces; the claims
  settled here do not depend on malformed JSON documents.
* Python floats are modelled exactly: the lexical-fallback scores are
  rationals (`ℚ`), and the torch cosine similarity is modelled over `ℝ`
  following the documented formula of `torch.cosine_similarity`
  (`x / max(norm-product, eps)` with `eps = 1e-8`).
* The sentence-transformer model is an abstract deterministic encoder
  (`EmbedModel`): a function from strings to vectors plus a similarity on
  vectors, matching §4.2 of the specification, which requires the engine to
  depend on the provider only through this interface.  A model that failed
  to initialise is `none`; an absent embedding cache is `none`.
* Exception control flow is made explicit: every place where the Python
  code can raise inside a `try` block is modelled by the value that the
  matching `except` branch produces (noted at each definition).
-/

namespace PhotoAssistant

/-- One question/answer record of the corpus (an `FAQEntry`). -/
structure QA where
  question : String
  answer : String
deriving DecidableEq, Repr, Inhabited

/-- One category of the corpus: display name plus ordered entries. -/
structure Category where
  name : String
  questions : List QA
deriving DecidableEq, Repr, Inhabited

/-- The metadata block of the corpus document. -/
structure Metadata where
  version : String
  last_updated : String
  total_questions : Int
deriving DecidableEq, Repr, Inhabited

/-- The corpus document: category key to category, in insertion order,
plus metadata.  Models the dictionary held in `self.faq_data`. -/
structure FaqData where
  categories : List (String × Category)
  metadata : Metadata
deriving DecidableEq, Repr, Inhabited

/-- Models `FAQHandler.get_all_questions`: flatten the categories, in
category-then-insertion order.  This flattened order is the index space the
embedding cache and the rankers use. -/
def get_all_questions (d : FaqData) : List QA :=
  (d.categories.map (fun p => p.2.questions)).flatten

/-- Auxiliary worker for whitespace splitting: `cur` is the reversed chunk
of non-whitespace characters read so far. -/
def splitWsAux : List Char → List Char → List (List Char)
| [], cur => if cur = [] then [] else [cur.reverse]
| c :: rest, cur =>
  if c.isWhitespace then
    (if cur = [] then splitWsAux rest [] else cur.reverse :: splitWsAux rest [])
  else splitWsAux rest (c :: cur)

/-- Models the Python `str.lower()` (ASCII case folding). -/
def pyLower (s : String) : String := String.mk (s.toList.map Char.toLower)

/-- Models the Python no-argument `str.split()`: split on runs of
whitespace, never producing empty tokens. -/
def pyWords (s : String) : List String := (splitWsAux s.toList []).map String.mk

/-- Models `set(s.split())`: the distinct whitespace tokens of `s`.  Only
cardinality and membership of this list are ever used, matching Python set
semantics. -/
def wordSet (s : String) : List String := (pyWords s).dedup

/-- Models the Python substring test `pat in s`. -/
def strContainsSub (s pat : String) : Bool :=
  (List.range (s.length + 1)).any (fun i => pat.toList.isPrefixOf (s.toList.drop i))

/-- Models `question_words.intersection(faq_words)` for the lowered query
`ql` and lowered corpus question `fq`. -/
def commonWords (ql fq : String) : List String :=
  (wordSet ql).filter (fun w => w ∈ wordSet fq)

/-- Models `any(word in ql for word in t.split())`: some whitespace token
of `t` occurs as a substring of `ql`. -/
def hasAnyWordIn (ql t : String) : Bool :=
  (pyWords t).any (fun w => strContainsSub ql w)

/-- Models the per-entry score of `FAQHandler._fallback_answer_question`
(lines 326-343): word-overlap ratio, plus 0.5 when a question token occurs
in the query text, plus 0.3 when an answer token occurs in the query text.
`ql` is the lowered query. -/
def fallbackScore (ql : String) (qa : QA) : ℚ :=
  let fq := pyLower qa.question
  let fa := pyLower qa.answer
  let s1 : ℚ := if commonWords ql fq ≠ [] then
      ((commonWords ql fq).length : ℚ) / (max (wordSet ql).length (wordSet fq).length : ℚ)
    else 0
  let s2 : ℚ := if hasAnyWordIn ql fq then 1/2 else 0
  let s3 : ℚ := if hasAnyWordIn ql fa then 3/10 else 0
  s1 + s2 + s3

/-- Models one iteration of the loop in `_fallback_answer_question`:
`if score > best_score: best_score, best_match = score, qa["answer"]`.
The accumulator is `(best_match, best_score)` with `best_match = none`
for the initial Python `None`. -/
def fallbackStep (ql : String) (acc : Option String × ℚ) (qa : QA) : Option String × ℚ :=
  if acc.2 < fallbackScore ql qa then (some qa.answer, fallbackScore ql qa) else acc

/-- The fixed uncertain-answer message returned by both answer paths. -/
def uncertainMsg : String :=
  "I couldn't find a specific answer to your question. Please try rephrasing or check the FAQ section for similar topics."

/-- Models `FAQHandler._fallback_answer_question`: fold the scoring loop
over the flattened corpus starting from `(None, 0)`, then
`if best_match and best_score > 0.2: return best_match else return` the
uncertain-answer message.  Python truthiness makes `best_match` falsy both
when it is `None` and when it is the empty string. -/
def fallback_answer_question (d : FaqData) (q : String) : String :=
  let ql := pyLower q
  match (get_all_questions d).foldl (fallbackStep ql) (none, 0) with
  | (some a, s) => if a ≠ "" ∧ s > 1/5 then a else uncertainMsg
  | (none, _) => uncertainMsg

/-- The embedding provider interface of §4.2: a deterministic encoder from
strings to vectors plus a similarity on vectors.  `answer_question` and
`get_similar_questions` receive `none` when `SentenceTransformer`
construction failed (`self.model = None`). -/
structure EmbedModel (α : Type) (V : Type) where
  enc : String → V
  cosSim : V → V → α

/-- Models `torch.argmax` on a one-dimensional tensor: the index of the
first maximal value; `none` for the empty tensor (where torch raises). -/
def argmaxIdx {α : Type} [LinearOrder α] : List α → Option Nat
| [] => none
| x :: xs =>
  match argmaxIdx xs with
  | none => some 0
  | some j => if x < xs.getD j x then some (j + 1) else some 0

/-- Models `FAQHandler.answer_question` (lines 265-305).  `model` is the
sentence-transformer (`none` when unavailable), `cache` the cached
`question_embeddings` (`none` when absent).  The `argmaxIdx = none` arm
models the `RuntimeError` torch raises for an empty tensor, caught by the
surrounding `except`, which falls back; the out-of-bounds arm models the
explicit `else` branch of the index check. -/
def answer_question {α V : Type} [LinearOrderedField α]
    (model : Option (EmbedModel α V)) (cache : Option (List V))
    (d : FaqData) (q : String) : String :=
  match model, cache with
  | some m, some embs =>
    let sims := embs.map (fun e => m.cosSim (m.enc q) e)
    match argmaxIdx sims with
    | none => fallback_answer_question d q
    | some idx =>
      match (get_all_questions d).get? idx with
      | some qa => if sims.getD idx 0 < 3/10 then uncertainMsg else qa.answer
      | none => fallback_answer_question d q
  | _, _ => fallback_answer_question d q

/-- The flattened corpus with positions attached, starting at `n`.  Used to
model the index bookkeeping of `torch.topk`. -/
def idxList {α : Type} (n : Nat) : List α → List (Nat × α)
| [] => []
| x :: xs => (n, x) :: idxList (n + 1) xs

/-- Picks the first pair of maximal value out of a list, returning it with
the remaining pairs in their original order. -/
def pickFirstMax {α : Type} [LinearOrder α] : List (Nat × α) → Option ((Nat × α) × List (Nat × α))
| [] => none
| p :: ps =>
  match pickFirstMax ps with
  | none => some (p, [])
  | some (q, rest) => if p.2 < q.2 then some (q, p :: rest) else some (p, ps)

/-- Repeated first-maximum selection: the indices of the `k` largest values
in descending order, ties resolved towards the lowest index. -/
def selectTop {α : Type} [LinearOrder α] : Nat → List (Nat × α) → List Nat
| 0, _ => []
| k + 1, l =>
  match pickFirstMax l with
  | none => []
  | some (p, rest) => p.1 :: selectTop k rest

/-- Models `torch.topk(sims, k).indices` on a one-dimensional tensor:
indices of the `k` largest entries, values in descending order, ties
towards the lowest index. -/
def topkIndices {α : Type} [LinearOrder α] (sims : List α) (k : Nat) : List Nat :=
  selectTop k (idxList 0 sims)

/-- Models `FAQHandler.get_similar_questions` (lines 354-392): empty result
when the model or the embedding cache is unavailable, otherwise the top
`min(top_k, len(similarities))` indices, each emitted only after the
`0 <= idx < len(all_questions)` bounds check. -/
def get_similar_questions {α V : Type} [LinearOrderedField α]
    (model : Option (EmbedModel α V)) (cache : Option (List V))
    (d : FaqData) (q : String) (k : Nat) : List (String × String × α) :=
  match model, cache with
  | some m, some embs =>
    let sims := embs.map (fun e => m.cosSim (m.enc q) e)
    let idxs := topkIndices sims (min k sims.length)
    idxs.filterMap (fun i =>
      match (get_all_questions d).get? i with
      | some qa => some (qa.question, qa.answer, sims.getD i 0)
      | none => none)
  | _, _ => []

/-- Models the Python `str.title()` for ASCII text: uppercase every letter
that does not follow a letter, lowercase the rest. -/
def pyTitle (s : String) : String :=
  String.mk ((s.toList.foldl
    (fun (acc : List Char × Bool) c =>
      (acc.1 ++ [if acc.2 then c.toLower else c.toUpper], c.isAlpha))
    ([], false)).1)

/-- Models `FAQHandler._save_faq_data`: `ioError = some msg` represents the
write raising (I/O or serialization failure).  The body catches every
exception and only logs it, so the caller always observes a normal
return. -/
def save_faq_data (ioError : Option String) : Unit :=
  match ioError with
  | some _ => ()
  | none => ()

/-- Models `FAQHandler.add_question` (lines 189-222) on well-formed
in-memory data: create the category if absent, append the entry, bump
`total_questions`, then save.  Returns the Python boolean result together
with the mutated corpus.  On well-formed data no statement of the `try`
body raises, and `save_faq_data` swallows the modelled write failure, so
the `except ... return False` branch is unreachable. -/
def add_question (ioError : Option String) (d : FaqData)
    (category question answer : String) : Bool × FaqData :=
  let cats :=
    if d.categories.any (fun p => p.1 = category) then d.categories
    else d.categories ++ [(category, { name := pyTitle category, questions := [] })]
  let cats2 := cats.map (fun p =>
    if p.1 = category then
      (p.1, { p.2 with questions := p.2.questions ++ [{ question := question, answer := answer }] })
    else p)
  let d2 : FaqData :=
    { categories := cats2
      metadata := { d.metadata with total_questions := d.metadata.total_questions + 1 } }
  let _ := save_faq_data ioError
  (true, d2)

/-- The built-in default corpus of `FAQHandler._get_default_faq_data`,
transcribed verbatim. -/
def default_faq_data : FaqData :=
  { categories :=
      [ ("general",
         { name := "General Questions"
           questions :=
             [ { question := "What can this photo assistant do?"
                 answer := "This photo assistant can analyze images to detect objects, extract text, identify scenes, and answer questions about photos using AI-powered vision and language models." }
             , { question := "How do I upload a photo?"
                 answer := "You can upload photos through the web interface by clicking the upload button and selecting an image file from your device." }
             , { question := "What file formats are supported?"
                 answer := "The assistant supports common image formats including JPEG, PNG, GIF, and WebP files." } ] })
      , ("analysis",
         { name := "Photo Analysis"
           questions :=
             [ { question := "What information can you extract from photos?"
                 answer := "I can detect objects, recognize text (OCR), identify scenes and concepts, detect faces, and provide detailed descriptions of image content." }
             , { question := "How accurate is the analysis?"
                 answer := "The analysis uses state-of-the-art AI models with high accuracy, though results may vary depending on image quality and content complexity." }
             , { question := "Can you read text in images?"
                 answer := "Yes, I can extract and read text from images using optical character recognition (OCR) technology." } ] })
      , ("usage",
         { name := "Usage Tips"
           questions :=
             [ { question := "How do I ask questions about my photos?"
                 answer := "After uploading a photo, you can type questions in the chat interface. Ask about objects, colors, text, or any other aspects of the image." }
             , { question := "What types of questions work best?"
                 answer := "Specific questions work best, such as 'What objects do you see?', 'Is there text in this image?', or 'Describe the colors in this photo.'" }
             , { question := "Can you compare multiple photos?"
                 answer := "Currently, the assistant analyzes one photo at a time. You can upload different photos sequentially for comparison." } ] }) ]
    metadata := { version := "1.0", last_updated := "2024-01-01", total_questions := 9 } }

/-- Models `FAQHandler._load_faq_data`: `fileExists` is whether the corpus
file exists; `parsed` is the outcome of reading and parsing it, with
`Except.error` standing for any exception raised by `open` or `json.load`
(caught by the `except`, which substitutes the default corpus). -/
def load_faq_data (fileExists : Bool) (parsed : Except String FaqData) : FaqData :=
  if fileExists then
    match parsed with
    | Except.ok d => d
    | Except.error _ => default_faq_data
  else default_faq_data

/-- Dot product of two real vectors, pairing componentwise. -/
noncomputable def dotList (a b : List ℝ) : ℝ := ((a.zip b).map (fun p => p.1 * p.2)).sum

/-- Euclidean norm of a real vector. -/
noncomputable def l2norm (a : List ℝ) : ℝ := Real.sqrt (dotList a a)

/-- The similarity both ranking paths apply: `torch.cosine_similarity`,
which by its documented formula computes
`dot(a, b) / max(norm(a) * norm(b), eps)` with `eps = 1e-8`.  Python
floats are modelled by exact reals. -/
noncomputable def torchCosineSim (a b : List ℝ) : ℝ :=
  dotList a b / max (l2norm a * l2norm b) (1/100000000)

/-- Cosine similarity as §4.3 of the specification words it:
`dot(a, b) / (norm(a) * norm(b))`, defined as 0 when either norm is
zero. -/
noncomputable def specCosineSim (a b : List ℝ) : ℝ :=
  if l2norm a = 0 ∨ l2norm b = 0 then 0 else dotList a b / (l2norm a * l2norm b)

/-- Spec-side per-entry score, following the words of §4.6: overlap ratio
`|common_words| / max(|words(query)|, |words(question)|)` plus 0.5 when any
question token occurs in the query text plus 0.3 when any answer token
occurs in the query text. -/
def specScore (ql : String) (qa : QA) : ℚ :=
  ((commonWords ql (pyLower qa.question)).length : ℚ)
      / (max (wordSet ql).length (wordSet (pyLower qa.question)).length : ℚ)
    + (if hasAnyWordIn ql (pyLower qa.question) then 1/2 else 0)
    + (if hasAnyWordIn ql (pyLower qa.answer) then 3/10 else 0)

/-- First pair of maximal score in a scored list: the winner under the
strictly-highest-score rule of §4.6, ties resolved towards the first
occurrence. -/
def firstMax {β : Type} [LinearOrder β] : List (String × β) → Option (String × β)
| [] => none
| p :: ps =>
  match firstMax ps with
  | none => some p
  | some q => if p.2 < q.2 then some q else some p

/-- Spec-side single-answer fallback, following the words of §4.6: the
entry with the strictly highest score wins, ties broken by first occurrence
in corpus order; when the winning score is at most 0.2 or there are no
entries, the uncertain-answer message results. -/
def fallbackSpecAnswer (d : FaqData) (q : String) : String :=
  let ql := pyLower q
  match firstMax ((get_all_questions d).map (fun qa => (qa.answer, specScore ql qa))) with
  | none => uncertainMsg
  | some p => if p.2 ≤ 1/5 then uncertainMsg else p.1

/-! ### Concrete fixtures used to evaluate the operations at specific inputs

The engine depends on the embedding provider only through the `EmbedModel`
interface (spec §4.2).  The concrete providers below encode strings into
one-dimensional vectors and score them with the torch cosine formula
restricted to dimension one, where `norm([x]) = |x|`, so every similarity
they produce is one the deployed similarity function can produce. -/

/-- The torch cosine similarity specialised to one-dimensional vectors:
`a * b / max(|a| * |b|, eps)` with `eps = 1e-8`. -/
def dim1CosSim (a b : ℚ) : ℚ := a * b / max (|a| * |b|) (1/100000000)

/-- Provider encoding every string to the unit vector `[1]`. -/
def constEnc : EmbedModel ℚ ℚ := { enc := fun _ => 1, cosSim := dim1CosSim }

/-- Provider encoding the string "beta" to `[1]` and all others to the
zero vector. -/
def betaEnc : EmbedModel ℚ ℚ := { enc := fun s => if s = "beta" then 1 else 0, cosSim := dim1CosSim }

/-- Tiny corpus with one entry whose answer is non-empty. -/
def dW : FaqData :=
  { categories := [("general", { name := "General", questions := [{ question := "hello world", answer := "greet" }] })]
    metadata := { version := "1.0", last_updated := "2024-01-01", total_questions := 1 } }

/-- Corpus with a single entry whose answer text is the empty string. -/
def dEmptyAns : FaqData :=
  { categories := [("g", { name := "G", questions := [{ question := "hi", answer := "" }] })]
    metadata := { version := "1.0", last_updated := "2024-01-01", total_questions := 1 } }

/-- Two-category corpus used to build a stale embedding cache. -/
def dTwoCat : FaqData :=
  { categories :=
      [ ("a", { name := "A", questions := [{ question := "alpha", answer := "AANS" }] })
      , ("b", { name := "B", questions := [{ question := "beta", answer := "BANS" }] }) ]
    metadata := { version := "1.0", last_updated := "2024-01-01", total_questions := 2 } }

/-- One-category corpus; `dOneCatPlus` is the same corpus after appending
one entry at the end of its only (hence last) category. -/
def dOneCat : FaqData :=
  { categories := [("a", { name := "A", questions := [{ question := "alpha", answer := "AANS" }] })]
    metadata := { version := "1.0", last_updated := "2024-01-01", total_questions := 1 } }

/-- The corpus `dOneCat` after an end-of-corpus append. -/
def dOneCatPlus : FaqData :=
  { categories := [("a", { name := "A", questions := [{ question := "alpha", answer := "AANS" }, { question := "gamma", answer := "NEWANS" }] })]
    metadata := { version := "1.0", last_updated := "2024-01-01", total_questions := 2 } }

/-- Corpus with one entry, used for a concrete fallback evaluation where
the winning answer text is empty. -/
def dEmptyAnsHello : FaqData :=
  { categories := [("g", { name := "G", questions := [{ question := "hello", answer := "" }] })]
    metadata := { version := "1.0", last_updated := "2024-01-01", total_questions := 1 } }

/-- Two-entry one-category corpus used to evaluate the top-k operation. -/
def dTwoEntries : FaqData :=
  { categories :=
      [ ("g", { name := "G", questions :=
          [ { question := "alpha", answer := "AANS" }
          , { question := "beta", answer := "BANS" } ] }) ]
    metadata := { version := "1.0", last_updated := "2024-01-01", total_questions := 2 } }

/-! ### Lemmas about the lexical fallback -/

lemma fallbackScore_nonneg (ql : String) (qa : QA) : 0 ≤ fallbackScore ql qa := by
  unfold fallbackScore
  dsimp only
  split <;> split <;> split <;> positivity

lemma specScore_eq_fallbackScore (ql : String) (qa : QA) :
    specScore ql qa = fallbackScore ql qa := by
  by_cases h : commonWords ql (pyLower qa.question) = [] <;>
    simp [specScore, fallbackScore, h]

lemma firstMax_mem {β : Type} [LinearOrder β] {l : List (String × β)} {p : String × β}
    (h : firstMax l = some p) : p ∈ l := by
  induction l with
  | nil => simp [firstMax] at h
  | cons x xs ih =>
    rw [firstMax] at h
    cases hm : firstMax xs with
    | none => simp only [hm] at h; simp at h; simp [h]
    | some q =>
      simp only [hm] at h
      by_cases hlt : x.2 < q.2
      · rw [if_pos hlt] at h
        simp at h
        subst h
        exact List.mem_cons_of_mem _ (ih hm)
      · rw [if_neg hlt] at h
        simp at h
        simp [h]

lemma foldl_step_from_some (ql : String) (l : List QA) (a : String) (s : ℚ) :
    l.foldl (fallbackStep ql) (some a, s) =
      match firstMax (l.map (fun qa => (qa.answer, fallbackScore ql qa))) with
      | none => (some a, s)
      | some p => if s < p.2 then (some p.1, p.2) else (some a, s) := by
  induction l generalizing a s with
  | nil => simp [firstMax]
  | cons qa rest ih =>
    rw [List.foldl_cons, List.map_cons, firstMax]
    by_cases h1 : s < fallbackScore ql qa
    · rw [show fallbackStep ql (some a, s) qa = (some qa.answer, fallbackScore ql qa) from by
        simp [fallbackStep, h1]]
      rw [ih]
      cases hm : firstMax (rest.map (fun qa => (qa.answer, fallbackScore ql qa))) with
      | none => simp only [hm]; simp [h1]
      | some q =>
        simp only [hm]
        by_cases h2 : fallbackScore ql qa < q.2
        · simp only [if_pos h2]
          simp [h1.trans h2]
        · simp only [if_neg h2]
          simp [h1]
    · rw [show fallbackStep ql (some a, s) qa = (some a, s) from by simp [fallbackStep, h1]]
      rw [ih]
      cases hm : firstMax (rest.map (fun qa => (qa.answer, fallbackScore ql qa))) with
      | none => simp only [hm]; simp [h1]
      | some q =>
        simp only [hm]
        by_cases h2 : fallbackScore ql qa < q.2
        · simp only [if_pos h2]
        · simp only [if_neg h2]
          have hq : q.2 ≤ fallbackScore ql qa := not_lt.mp h2
          have hs : fallbackScore ql qa ≤ s := not_lt.mp h1
          rw [if_neg h1, if_neg (not_lt.mpr (hq.trans hs))]

lemma foldl_step_from_none (ql : String) (l : List QA) :
    l.foldl (fallbackStep ql) (none, 0) =
      match firstMax (l.map (fun qa => (qa.answer, fallbackScore ql qa))) with
      | none => ((none : Option String), (0 : ℚ))
      | some p => if 0 < p.2 then (some p.1, p.2) else ((none : Option String), (0 : ℚ)) := by
  cases l with
  | nil => simp [firstMax]
  | cons qa rest =>
    rw [List.foldl_cons, List.map_cons, firstMax]
    by_cases h1 : (0 : ℚ) < fallbackScore ql qa
    · rw [show fallbackStep ql (none, 0) qa = (some qa.answer, fallbackScore ql qa) from by
        simp [fallbackStep, h1]]
      rw [foldl_step_from_some]
      cases hm : firstMax (rest.map (fun qa => (qa.answer, fallbackScore ql qa))) with
      | none => simp only [hm]; simp [h1]
      | some q =>
        simp only [hm]
        by_cases h2 : fallbackScore ql qa < q.2
        · simp only [if_pos h2]
          simp [h1.trans h2]
        · simp only [if_neg h2]
          simp [h1]
    · have hz : fallbackScore ql qa = 0 :=
        le_antisymm (not_lt.mp h1) (fallbackScore_nonneg ql qa)
      rw [show fallbackStep ql (none, 0) qa = (none, 0) from by simp [fallbackStep, h1]]
      rw [foldl_step_from_none]
      cases hm : firstMax (rest.map (fun qa => (qa.answer, fallbackScore ql qa))) with
      | none => simp only [hm]; simp [hz]
      | some q =>
        have hq : 0 ≤ q.2 := by
          have := firstMax_mem hm
          obtain ⟨qb, _, hqb⟩ := List.mem_map.mp this
          rw [← hqb]
          exact fallbackScore_nonneg ql qb
        simp only [hm]
        by_cases h2 : fallbackScore ql qa < q.2
        · simp only [if_pos h2]
        · have hqz : q.2 = 0 := le_antisymm (hz ▸ not_lt.mp h2) hq
          simp only [if_neg h2, hz, hqz]
          simp

lemma fallback_answer_char (d : FaqData) (q : String) :
    fallback_answer_question d q =
      match firstMax ((get_all_questions d).map
          (fun qa => (qa.answer, fallbackScore (pyLower q) qa))) with
      | none => uncertainMsg
      | some p => if p.1 ≠ "" ∧ 1/5 < p.2 then p.1 else uncertainMsg := by
  rw [fallback_answer_question]
  rw [foldl_step_from_none]
  cases hm : firstMax ((get_all_questions d).map
      (fun qa => (qa.answer, fallbackScore (pyLower q) qa))) with
  | none => simp only [hm]
  | some p =>
    have hp : 0 ≤ p.2 := by
      have := firstMax_mem hm
      obtain ⟨qb, _, hqb⟩ := List.mem_map.mp this
      rw [← hqb]
      exact fallbackScore_nonneg (pyLower q) qb
    simp only [hm]
    by_cases h1 : (0 : ℚ) < p.2
    · simp only [if_pos h1]
    · have hz : p.2 = 0 := le_antisymm (not_lt.mp h1) hp
      simp only [if_neg h1]
      have hno : ¬ (p.1 ≠ "" ∧ 1/5 < p.2) := by
        rintro ⟨-, hlt⟩
        rw [hz] at hlt
        norm_num at hlt
      rw [if_neg hno]

lemma fallback_answer_cases (d : FaqData) (q : String) :
    fallback_answer_question d q = uncertainMsg ∨
    ∃ qa ∈ get_all_questions d, fallback_answer_question d q = qa.answer := by
  rw [fallback_answer_char]
  cases hm : firstMax ((get_all_questions d).map
      (fun qa => (qa.answer, fallbackScore (pyLower q) qa))) with
  | none => left; rfl
  | some p =>
    dsimp only
    by_cases h : p.1 ≠ "" ∧ 1/5 < p.2
    · right
      obtain ⟨qb, hqb, hpe⟩ := List.mem_map.mp (firstMax_mem hm)
      refine ⟨qb, hqb, ?_⟩
      rw [if_pos h, ← hpe]
    · left
      rw [if_neg h]

lemma fallback_answer_ne_empty (d : FaqData) (q : String) :
    fallback_answer_question d q ≠ "" := by
  rw [fallback_answer_char]
  cases hm : firstMax ((get_all_questions d).map
      (fun qa => (qa.answer, fallbackScore (pyLower q) qa))) with
  | none => decide
  | some p =>
    dsimp only
    by_cases h : p.1 ≠ "" ∧ 1/5 < p.2
    · rw [if_pos h]; exact h.1
    · rw [if_neg h]; decide

/-! ### Lemmas about the argmax of the similarity tensor -/

lemma argmaxIdx_lt_length {α : Type} [LinearOrder α] :
    ∀ {l : List α} {i : Nat}, argmaxIdx l = some i → i < l.length := by
  intro l
  induction l with
  | nil => intro i h; simp [argmaxIdx] at h
  | cons x xs ih =>
    intro i h
    rw [argmaxIdx] at h
    cases hm : argmaxIdx xs with
    | none =>
      simp only [hm] at h
      cases h
      simp
    | some j =>
      simp only [hm] at h
      by_cases hlt : x < xs.getD j x
      · rw [if_pos hlt] at h
        cases h
        have := ih hm
        simp
        omega
      · rw [if_neg hlt] at h
        cases h
        simp

lemma argmaxIdx_cons_isSome {α : Type} [LinearOrder α] (x : α) (xs : List α) :
    ∃ i, argmaxIdx (x :: xs) = some i := by
  rw [argmaxIdx]
  cases argmaxIdx xs with
  | none => exact ⟨0, rfl⟩
  | some j =>
    by_cases h : x < xs.getD j x
    · exact ⟨j + 1, by dsimp only; rw [if_pos h]⟩
    · exact ⟨0, by dsimp only; rw [if_neg h]⟩

/-! ### Case analysis of the best-answer operation -/

lemma answer_question_cases {α V : Type} [LinearOrderedField α]
    (model : Option (EmbedModel α V)) (cache : Option (List V)) (d : FaqData) (q : String) :
    answer_question model cache d q = uncertainMsg ∨
    ∃ qa ∈ get_all_questions d, answer_question model cache d q = qa.answer := by
  cases model with
  | none =>
    cases cache with
    | none => simpa [answer_question] using fallback_answer_cases d q
    | some c => simpa [answer_question] using fallback_answer_cases d q
  | some m =>
    cases cache with
    | none => simpa [answer_question] using fallback_answer_cases d q
    | some embs =>
      simp only [answer_question]
      cases ha : argmaxIdx (embs.map fun e => m.cosSim (m.enc q) e) with
      | none => simp only [ha]; exact fallback_answer_cases d q
      | some idx =>
        simp only [ha]
        cases hq : (get_all_questions d).get? idx with
        | none => simp only [hq]; exact fallback_answer_cases d q
        | some qa =>
          simp only [hq]
          by_cases hlt : (embs.map fun e => m.cosSim (m.enc q) e).getD idx 0 < 3/10
          · left; rw [if_pos hlt]
          · right; exact ⟨qa, List.get?_mem hq, by rw [if_neg hlt]⟩

lemma answer_question_ne_empty {α V : Type} [LinearOrderedField α]
    (model : Option (EmbedModel α V)) (cache : Option (List V)) (d : FaqData) (q : String)
    (h : ∀ qa ∈ get_all_questions d, qa.answer ≠ "") :
    answer_question model cache d q ≠ "" := by
  rcases answer_question_cases model cache d q with hm | ⟨qa, hqa, he⟩
  · rw [hm]; decide
  · rw [he]; exact h qa hqa

/-! ### Claim C10 -/

/-- C10: for every corpus, every query and every embedding provider state,
the string returned by the best-answer operation is either the answer field
of some entry currently in the corpus or exactly the fixed
uncertain-answer message — no other output is possible on either the
embedding path or the lexical fallback path. -/
theorem answer_question_output_closed {α V : Type} [LinearOrderedField α]
    (model : Option (EmbedModel α V)) (cache : Option (List V)) (d : FaqData) (q : String) :
    answer_question model cache d q = uncertainMsg ∨
    ∃ qa ∈ get_all_questions d, answer_question model cache d q = qa.answer :=
  answer_question_cases model cache d q

/-! ### Claim C1 -/

/-- C1, counterexample: with the embedding provider available and an entry
whose stored answer text is the empty string, a confident match (here a
self-match with similarity 1 computed by the torch cosine formula) returns
that empty answer verbatim, so `answer_question` does not always return a
non-empty string. -/
theorem answer_question_empty_output_cex :
    answer_question (some constEnc) (some [1]) dEmptyAns "hi" = "" := by
  simp only [answer_question]
  have h1 : (([1] : List ℚ).map (fun e => constEnc.cosSim (constEnc.enc "hi") e)) = [1] := by
    have : dim1CosSim 1 1 = 1 := by
      rw [dim1CosSim, abs_one, mul_one, max_eq_left (by norm_num)]
      norm_num
    simp [constEnc, this]
  rw [h1]
  simp only [show argmaxIdx ([1] : List ℚ) = some 0 from rfl,
    show (get_all_questions dEmptyAns).get? 0 = some { question := "hi", answer := "" } from rfl,
    show (([1] : List ℚ).getD 0 0) = 1 from rfl]
  rw [if_neg (by norm_num)]

/-- C1, amended: `answer_question` is a total function of its inputs (the
Python code catches every exception that its embedding path can raise) and
returns a non-empty string for every query whenever every answer stored in
the corpus is a non-empty string; the lexical fallback path never returns
an empty string even without that hypothesis.  The original claim fails
only for corpora that store an empty answer text, which the embedding path
can return verbatim. -/
theorem answer_question_nonempty {α V : Type} [LinearOrderedField α]
    (model : Option (EmbedModel α V)) (cache : Option (List V)) (d : FaqData) (q : String)
    (h : ∀ qa ∈ get_all_questions d, qa.answer ≠ "") :
    answer_question model cache d q ≠ "" :=
  answer_question_ne_empty model cache d q h

/-- C1, witness: the amended theorem applied at a concrete corpus whose
single answer is non-empty, in fallback mode with an empty-overlap
query. -/
theorem answer_question_nonempty_witness :
    answer_question (α := ℚ) (V := ℚ) none none dW "xyz" ≠ "" :=
  answer_question_nonempty none none dW "xyz" (by decide)

/-! ### Claim C5 -/

/-- C5: when the embedding model is available and the argmax of the cached
similarities designates the in-bounds entry `qa`, the best-answer
operation returns the matched entry answer text exactly when the best
similarity score is at least 0.3, and the fixed uncertain-answer message
for every score strictly below 0.3. -/
theorem answer_question_threshold {α V : Type} [LinearOrderedField α]
    (m : EmbedModel α V) (embs : List V) (d : FaqData) (q : String) (idx : Nat) (qa : QA)
    (hidx : argmaxIdx (embs.map (fun e => m.cosSim (m.enc q) e)) = some idx)
    (hqa : (get_all_questions d).get? idx = some qa) :
    ((3/10 : α) ≤ (embs.map (fun e => m.cosSim (m.enc q) e)).getD idx 0 →
        answer_question (some m) (some embs) d q = qa.answer) ∧
    ((embs.map (fun e => m.cosSim (m.enc q) e)).getD idx 0 < (3/10 : α) →
        answer_question (some m) (some embs) d q = uncertainMsg) := by
  constructor
  · intro hge
    simp only [answer_question, hidx, hqa]
    rw [if_neg (not_lt.mpr hge)]
  · intro hlt
    simp only [answer_question, hidx, hqa]
    rw [if_pos hlt]

/-- C5, witness: the threshold theorem applied at a concrete provider and
corpus where the self-match similarity is 1 ≥ 0.3, so the matched answer
is returned. -/
theorem answer_question_threshold_witness :
    (3/10 : ℚ) ≤ (([1] : List ℚ).map (fun e => constEnc.cosSim (constEnc.enc "hello world") e)).getD 0 0 ∧
    answer_question (some constEnc) (some [1]) dW "hello world" = "greet" := by
  have hsim : (([1] : List ℚ).map (fun e => constEnc.cosSim (constEnc.enc "hello world") e)) = [1] := by
    have : dim1CosSim 1 1 = 1 := by
      rw [dim1CosSim, abs_one, mul_one, max_eq_left (by norm_num)]
      norm_num
    simp [constEnc, this]
  have hge : (3/10 : ℚ) ≤ (([1] : List ℚ).map (fun e => constEnc.cosSim (constEnc.enc "hello world") e)).getD 0 0 := by
    rw [hsim]
    norm_num
  refine ⟨hge, ?_⟩
  exact (answer_question_threshold constEnc [1] dW "hello world" 0
    { question := "hello world", answer := "greet" } (by rw [hsim]; rfl) rfl).1 hge

/-! ### Claim C4 -/

/-- C4, counterexample: in a corpus whose winning entry stores the empty
string as its answer, the winning lexical score is 3/2 > 0.2, yet the code
returns the uncertain-answer message instead of the winning entry answer,
because `if best_match and best_score > 0.2` also tests the answer text
for Python truthiness.  The spec-worded selector returns the winning
(empty) answer. -/
theorem fallback_spec_mismatch_cex :
    fallback_answer_question dEmptyAnsHello "hello" = uncertainMsg ∧
    fallbackSpecAnswer dEmptyAnsHello "hello" = "" ∧
    (1/5 : ℚ) < specScore (pyLower "hello") { question := "hello", answer := "" } := by
  have h1 : commonWords (pyLower "hello") (pyLower "hello") = ["hello"] := by decide
  have h2 : (wordSet (pyLower "hello")).length = 1 := by decide
  have h3 : hasAnyWordIn (pyLower "hello") (pyLower "hello") = true := by decide
  have h4 : hasAnyWordIn (pyLower "hello") (pyLower "") = false := by decide
  have hs : specScore (pyLower "hello") { question := "hello", answer := "" } = 3/2 := by
    rw [specScore]
    dsimp only
    rw [h1, h2, h3, h4]
    norm_num
  have hsf : fallbackScore (pyLower "hello") { question := "hello", answer := "" } = 3/2 := by
    rw [← specScore_eq_fallbackScore]
    exact hs
  refine ⟨?_, ?_, ?_⟩
  · rw [fallback_answer_char]
    rw [show get_all_questions dEmptyAnsHello = [{ question := "hello", answer := "" }] from rfl]
    simp only [List.map_cons, List.map_nil]
    rw [hsf]
    rw [show firstMax [(("" : String), (3/2 : ℚ))] = some ("", 3/2) from rfl]
    dsimp only
    rw [if_neg (by simp)]
  · rw [fallbackSpecAnswer]
    rw [show get_all_questions dEmptyAnsHello = [{ question := "hello", answer := "" }] from rfl]
    simp only [List.map_cons, List.map_nil]
    rw [hs]
    rw [show firstMax [(("" : String), (3/2 : ℚ))] = some ("", 3/2) from rfl]
    dsimp only
    rw [if_neg (by norm_num)]
  · rw [hs]
    norm_num

/-- C4, amended: in fallback mode every entry scores exactly the
spec formula (overlap ratio plus the 0.5 and 0.3 bonuses — the lemma
`specScore_eq_fallbackScore`), the strictly highest score wins with ties
broken by first occurrence, and a winning score of at most 0.2 (or an
empty corpus) yields the uncertain-answer message; additionally — beyond
the claim as stated — a winning entry whose answer text is the empty
string also yields the message (Python truthiness of `best_match`).
Hence, for every corpus all of whose answers are non-empty, the code
agrees exactly with the spec-worded selector `fallbackSpecAnswer`. -/
theorem fallback_matches_spec (d : FaqData) (q : String)
    (h : ∀ qa ∈ get_all_questions d, qa.answer ≠ "") :
    fallback_answer_question d q = fallbackSpecAnswer d q := by
  rw [fallback_answer_char]
  simp only [fallbackSpecAnswer, specScore_eq_fallbackScore]
  cases hm : firstMax ((get_all_questions d).map
      (fun qa => (qa.answer, fallbackScore (pyLower q) qa))) with
  | none => rfl
  | some p =>
    dsimp only
    obtain ⟨qb, hqb, hpe⟩ := List.mem_map.mp (firstMax_mem hm)
    have hne : p.1 ≠ "" := by
      rw [← hpe]
      exact h qb hqb
    by_cases hgt : (1/5 : ℚ) < p.2
    · rw [if_pos ⟨hne, hgt⟩, if_neg (not_le.mpr hgt)]
    · rw [if_neg (fun hc => hgt hc.2), if_pos (not_lt.mp hgt)]

/-- C4, witness: the amended equivalence applied to a concrete corpus with
a non-empty answer. -/
theorem fallback_matches_spec_witness :
    fallback_answer_question dW "hello" = fallbackSpecAnswer dW "hello" :=
  fallback_matches_spec dW "hello" (by decide)

/-! ### Claim C2 -/

/-- C2, counterexample: a failing write during the persistence step of the
add operation (`ioError = some msg` models `open`/`json.dump` raising) is
swallowed inside `_save_faq_data`, and `add_question` still returns
`True`, not the boolean failure the claim requires. -/
theorem add_question_save_failure_cex :
    (add_question (some "disk full") default_faq_data "general" "Q" "A").1 = true := rfl

/-- C2, amended: no exception escapes the add operation, but a failure to
persist is not reported: `_save_faq_data` catches and merely logs the
write error, so `add_question` returns `True` regardless of the save
outcome (the in-memory corpus stays mutated).  `False` can only arise
from exceptions raised before the save step, on malformed in-memory data
outside this well-formed model. -/
theorem add_question_returns_true (ioError : Option String) (d : FaqData)
    (category question answer : String) :
    (add_question ioError d category question answer).1 = true := rfl

/-! ### Claim C7 -/

/-- C7: when the embedding provider is unavailable (the model failed to
initialise or the embedding cache is absent), the top-k operation returns
the empty sequence for every corpus, query and k, without routing to the
lexical fallback. -/
theorem get_similar_questions_unavailable {α V : Type} [LinearOrderedField α]
    (cache : Option (List V)) (m : EmbedModel α V) (d : FaqData) (q : String) (k : Nat) :
    get_similar_questions (α := α) (V := V) none cache d q k = [] ∧
    get_similar_questions (some m) none d q k = [] := by
  constructor
  · cases cache <;> rfl
  · rfl

/-! ### Claim C8 -/

/-- C8: the corpus load operation never fails its caller — a missing file
and a failed read/parse both produce the built-in default corpus, which
has three categories, nine entries and metadata `total_questions = 9`. -/
theorem load_faq_data_default :
    (∀ parsed, load_faq_data false parsed = default_faq_data) ∧
    (∀ e, load_faq_data true (Except.error e) = default_faq_data) ∧
    default_faq_data.categories.length = 3 ∧
    (get_all_questions default_faq_data).length = 9 ∧
    default_faq_data.metadata.total_questions = 9 := by
  refine ⟨fun parsed => rfl, fun e => rfl, rfl, rfl, rfl⟩

/-! ### Claim C3 -/

/-- C3, counterexample: the embedding cache is built over the two-category
corpus `dTwoCat` (flattened order: alpha, beta), then one entry is appended
via `add_question` into the first category, which shifts the flattened
order to alpha, gamma, beta.  Ranking still runs over the two cached
vectors only, and the best cached index is 1 (the caching-time entry
beta/BANS, self-similarity 1), but the code resolves index 1 in the
current flattened corpus and returns NEWANS — the answer of the newly
added entry, which the claim says is excluded. -/
theorem stale_cache_new_entry_cex :
    answer_question (some betaEnc)
        (some ((get_all_questions dTwoCat).map (fun qa => betaEnc.enc qa.question)))
        (add_question none dTwoCat "a" "gamma" "NEWANS").2 "beta" = "NEWANS" ∧
    (get_all_questions dTwoCat).get? 1 = some { question := "beta", answer := "BANS" } ∧
    ({ question := "gamma", answer := "NEWANS" } : QA) ∉ get_all_questions dTwoCat := by
  have h11 : dim1CosSim 1 1 = 1 := by
    rw [dim1CosSim, abs_one, mul_one, max_eq_left (by norm_num : (1:ℚ)/100000000 ≤ 1)]
    norm_num
  have h10 : dim1CosSim 1 (0:ℚ) = 0 := by
    rw [dim1CosSim]
    norm_num
  have hc : (get_all_questions dTwoCat).map (fun qa => betaEnc.enc qa.question)
      = [(0 : ℚ), 1] := by decide
  have hs : (([0, 1] : List ℚ).map (fun e => betaEnc.cosSim (betaEnc.enc "beta") e)) = [0, 1] := by
    simp only [betaEnc, List.map_cons, List.map_nil, if_true]
    rw [h10, h11]
  have ha : argmaxIdx ([0, 1] : List ℚ) = some 1 := by
    rw [argmaxIdx]
    rw [show argmaxIdx ([1] : List ℚ) = some 0 from rfl]
    dsimp only
    rw [show ([1] : List ℚ).getD 0 0 = 1 from rfl]
    rw [if_pos (by norm_num)]
  refine ⟨?_, by decide, by decide⟩
  simp only [answer_question]
  rw [hc, hs]
  simp only [ha,
    show (get_all_questions ((add_question none dTwoCat "a" "gamma" "NEWANS").2)).get? 1
        = some { question := "gamma", answer := "NEWANS" } from by decide,
    show ([0, 1] : List ℚ).getD 1 0 = 1 from rfl]
  rw [if_neg (by norm_num)]

/-- C3, amended: appending after the cache was built leaves ranking to the
cached vectors only (the argmax index is always below the cache length),
and the returned confident answer is resolved at that index in the
*current* flattened corpus.  When the append lands at the end of the
flattened order (last category or new category) the current entry at any
cached index coincides with the caching-time entry, so the claim holds;
an append into an earlier category shifts the flattened order and the
returned answer can belong to a different — possibly the new — entry, as
the counterexample shows. -/
theorem stale_cache_end_append {α V : Type} [LinearOrderedField α]
    (m : EmbedModel α V) (embs : List V) (d d2 : FaqData) (e : QA) (q : String)
    (happ : get_all_questions d2 = get_all_questions d ++ [e])
    (hlen : embs.length = (get_all_questions d).length)
    (hne : embs ≠ []) :
    answer_question (some m) (some embs) d2 q = uncertainMsg ∨
    ∃ i, ∃ h : i < (get_all_questions d).length,
      answer_question (some m) (some embs) d2 q = ((get_all_questions d).get ⟨i, h⟩).answer := by
  simp only [answer_question]
  cases hargmax : argmaxIdx (embs.map (fun e2 => m.cosSim (m.enc q) e2)) with
  | none =>
    exfalso
    cases hembs : embs with
    | nil => exact hne hembs
    | cons x xs =>
      obtain ⟨i, hi⟩ := argmaxIdx_cons_isSome (m.cosSim (m.enc q) x)
        (xs.map (fun e2 => m.cosSim (m.enc q) e2))
      rw [hembs, List.map_cons, hi] at hargmax
      cases hargmax
  | some idx =>
    have hidx : idx < (embs.map (fun e2 => m.cosSim (m.enc q) e2)).length :=
      argmaxIdx_lt_length hargmax
    have hidx2 : idx < (get_all_questions d).length := by
      rw [List.length_map, hlen] at hidx
      exact hidx
    have hq : (get_all_questions d2).get? idx
        = some ((get_all_questions d).get ⟨idx, hidx2⟩) := by
      rw [happ, List.get?_append hidx2, List.get?_eq_get hidx2]
    simp only [hargmax, hq]
    by_cases hlt : (embs.map (fun e2 => m.cosSim (m.enc q) e2)).getD idx 0 < 3/10
    · left
      rw [if_pos hlt]
    · right
      exact ⟨idx, hidx2, by rw [if_neg hlt]⟩

/-- C3, witness: the amended theorem applied to a one-category corpus with
an end-of-corpus append and a one-vector cache. -/
theorem stale_cache_end_append_witness :
    answer_question (some betaEnc) (some [(0:ℚ)]) dOneCatPlus "x" = uncertainMsg ∨
    ∃ i, ∃ h : i < (get_all_questions dOneCat).length,
      answer_question (some betaEnc) (some [(0:ℚ)]) dOneCatPlus "x"
        = ((get_all_questions dOneCat).get ⟨i, h⟩).answer :=
  stale_cache_end_append betaEnc [0] dOneCat dOneCatPlus
    { question := "gamma", answer := "NEWANS" } "x" (by decide) rfl (by simp)

/-! ### Lemmas about the top-k selection -/

lemma idxList_length {α : Type} : ∀ (l : List α) (n : Nat), (idxList n l).length = l.length := by
  intro l
  induction l with
  | nil => intro n; rfl
  | cons x xs ih => intro n; simp [idxList, ih]

lemma idxList_mem {α : Type} (d0 : α) :
    ∀ (l : List α) (n : Nat) (p : Nat × α), p ∈ idxList n l →
      n ≤ p.1 ∧ p.1 - n < l.length ∧ l.getD (p.1 - n) d0 = p.2 := by
  intro l
  induction l with
  | nil => intro n p hp; simp [idxList] at hp
  | cons x xs ih =>
    intro n p hp
    rw [idxList] at hp
    rcases List.mem_cons.mp hp with hp1 | hp2
    · subst hp1
      refine ⟨le_refl n, by simp, ?_⟩
      simp
    · obtain ⟨h1, h2, h3⟩ := ih (n + 1) p hp2
      refine ⟨by omega, by simp; omega, ?_⟩
      have hk : p.1 - n = (p.1 - (n + 1)) + 1 := by omega
      rw [hk, List.getD_cons_succ]
      exact h3

lemma idxList_pairwise {α : Type} :
    ∀ (l : List α) (n : Nat), List.Pairwise (fun p q : Nat × α => p.1 < q.1) (idxList n l) := by
  intro l
  induction l with
  | nil => intro n; simp [idxList]
  | cons x xs ih =>
    intro n
    rw [idxList]
    refine List.Pairwise.cons ?_ (ih (n + 1))
    intro q hq
    have := (idxList_mem x xs (n + 1) q hq).1
    omega

lemma pickFirstMax_cons_isSome {α : Type} [LinearOrder α] (p : Nat × α) (ps : List (Nat × α)) :
    ∃ r, pickFirstMax (p :: ps) = some r := by
  rw [pickFirstMax]
  cases pickFirstMax ps with
  | none => exact ⟨(p, []), rfl⟩
  | some qr =>
    obtain ⟨q, rest⟩ := qr
    dsimp only
    by_cases h : p.2 < q.2
    · exact ⟨(q, p :: rest), by rw [if_pos h]⟩
    · exact ⟨(p, ps), by rw [if_neg h]⟩

lemma pickFirstMax_spec {α : Type} [LinearOrder α] :
    ∀ {l : List (Nat × α)} {p : Nat × α} {rest : List (Nat × α)},
      pickFirstMax l = some (p, rest) →
      p ∈ l ∧ rest.Sublist l ∧ rest.length + 1 = l.length ∧ (∀ x ∈ l, x.2 ≤ p.2) := by
  intro l
  induction l with
  | nil => intro p rest h; simp [pickFirstMax] at h
  | cons a as ih =>
    intro p rest h
    rw [pickFirstMax] at h
    cases hm : pickFirstMax as with
    | none =>
      have has : as = [] := by
        cases as with
        | nil => rfl
        | cons b bs =>
          obtain ⟨r, hr⟩ := pickFirstMax_cons_isSome b bs
          rw [hr] at hm
          cases hm
      simp only [hm] at h
      cases h
      subst has
      exact ⟨List.mem_singleton_self a, List.nil_sublist _, rfl, by
        intro x hx
        rcases List.mem_singleton.mp hx with rfl
        exact le_refl _⟩
    | some qr =>
      obtain ⟨q, rest2⟩ := qr
      obtain ⟨hqmem, hqsub, hqlen, hqmax⟩ := ih hm
      simp only [hm] at h
      by_cases hlt : a.2 < q.2
      · rw [if_pos hlt] at h
        cases h
        refine ⟨List.mem_cons_of_mem a hqmem, List.Sublist.cons₂ a hqsub, by simp [← hqlen], ?_⟩
        intro x hx
        rcases List.mem_cons.mp hx with rfl | hx2
        · exact le_of_lt hlt
        · exact hqmax x hx2
      · rw [if_neg hlt] at h
        cases h
        refine ⟨List.mem_cons_self a as, List.sublist_cons_self a as, by simp, ?_⟩
        intro x hx
        rcases List.mem_cons.mp hx with rfl | hx2
        · exact le_refl _
        · exact (hqmax x hx2).trans (not_lt.mp hlt)

lemma pickFirstMax_tie {α : Type} [LinearOrder α] :
    ∀ {l : List (Nat × α)} {p : Nat × α} {rest : List (Nat × α)},
      List.Pairwise (fun a b : Nat × α => a.1 < b.1) l →
      pickFirstMax l = some (p, rest) →
      ∀ x ∈ rest, x.2 = p.2 → p.1 < x.1 := by
  intro l
  induction l with
  | nil => intro p rest _ h; simp [pickFirstMax] at h
  | cons a as ih =>
    intro p rest hpw h
    obtain ⟨hhead, htail⟩ := List.pairwise_cons.mp hpw
    rw [pickFirstMax] at h
    cases hm : pickFirstMax as with
    | none =>
      simp only [hm] at h
      cases h
      intro x hx
      simp at hx
    | some qr =>
      obtain ⟨q, rest2⟩ := qr
      simp only [hm] at h
      by_cases hlt : a.2 < q.2
      · rw [if_pos hlt] at h
        cases h
        intro x hx hxe
        rcases List.mem_cons.mp hx with rfl | hx2
        · exact absurd hxe (ne_of_lt hlt)
        · exact ih htail hm x hx2 hxe
      · rw [if_neg hlt] at h
        cases h
        intro x hx _
        exact hhead x hx

lemma selectTop_length {α : Type} [LinearOrder α] :
    ∀ (k : Nat) (l : List (Nat × α)), (selectTop k l).length = min k l.length := by
  intro k
  induction k with
  | zero => intro l; simp [selectTop]
  | succ k ih =>
    intro l
    cases l with
    | nil => rw [selectTop]; rfl
    | cons p ps =>
      obtain ⟨r, hr⟩ := pickFirstMax_cons_isSome p ps
      obtain ⟨ph, rest⟩ := r
      rw [selectTop, hr]
      dsimp only [List.length_cons]
      have hlen := (pickFirstMax_spec hr).2.2.1
      simp only [List.length_cons] at hlen
      rw [ih rest]
      omega

lemma selectTop_mem {α : Type} [LinearOrder α] :
    ∀ (k : Nat) (l : List (Nat × α)) (i : Nat), i ∈ selectTop k l → ∃ v, (i, v) ∈ l := by
  intro k
  induction k with
  | zero => intro l i h; simp [selectTop] at h
  | succ k ih =>
    intro l i h
    rw [selectTop] at h
    cases hm : pickFirstMax l with
    | none => simp only [hm] at h; simp at h
    | some r =>
      obtain ⟨p, rest⟩ := r
      simp only [hm] at h
      obtain ⟨hpm, hpsub, -, -⟩ := pickFirstMax_spec hm
      rcases List.mem_cons.mp h with rfl | h2
      · exact ⟨p.2, by simpa using hpm⟩
      · obtain ⟨v, hv⟩ := ih rest i h2
        exact ⟨v, hpsub.subset hv⟩

lemma selectTop_pairwise {α : Type} [LinearOrder α] (val : Nat → α) :
    ∀ (k : Nat) (l : List (Nat × α)),
      List.Pairwise (fun p q : Nat × α => p.1 < q.1) l →
      (∀ p ∈ l, val p.1 = p.2) →
      List.Pairwise (fun i j => val j < val i ∨ (val i = val j ∧ i < j)) (selectTop k l) := by
  intro k
  induction k with
  | zero => intro l _ _; simp [selectTop]
  | succ k ih =>
    intro l hpw hcoh
    rw [selectTop]
    cases hm : pickFirstMax l with
    | none => exact List.Pairwise.nil
    | some r =>
      obtain ⟨p, rest⟩ := r
      obtain ⟨hpm, hpsub, -, hpmax⟩ := pickFirstMax_spec hm
      refine List.Pairwise.cons ?_ (ih rest (hpw.sublist hpsub) (fun x hx => hcoh x (hpsub.subset hx)))
      intro j hj
      obtain ⟨v, hv⟩ := selectTop_mem k rest j hj
      have hvl : (j, v) ∈ l := hpsub.subset hv
      have hvj : val j = v := hcoh (j, v) hvl
      have hvp : val p.1 = p.2 := hcoh p hpm
      rcases lt_or_eq_of_le (hpmax (j, v) hvl) with hlt | heq
      · left
        rw [hvj, hvp]
        exact hlt
      · right
        refine ⟨by rw [hvp, hvj]; exact heq.symm, ?_⟩
        exact pickFirstMax_tie hpw hm (j, v) hv heq

lemma filterMap_get_eq_map {β : Type} (all : List QA) (f : Nat → QA → β) :
    ∀ (idxs : List Nat), (∀ i ∈ idxs, i < all.length) →
      idxs.filterMap (fun i =>
        match all.get? i with
        | some qa => some (f i qa)
        | none => none)
      = idxs.map (fun i => f i (all.getD i default)) := by
  intro idxs
  induction idxs with
  | nil => intro _; rfl
  | cons i is ih =>
    intro h
    have hi : i < all.length := h i (List.mem_cons_self i is)
    rw [List.filterMap_cons, List.map_cons]
    rw [List.get?_eq_get hi]
    dsimp only
    rw [ih (fun j hj => h j (List.mem_cons_of_mem i hj))]
    congr 1
    rw [List.getD_eq_get _ _ hi]

/-! ### Claim C6 -/

/-- C6: with the embedding cache aligned to the corpus of N entries, the
top-k operation returns exactly `min k N` (question, answer, score)
triples (so at most `min k N`, with k > N clamped to N and an empty corpus
yielding the empty result), their scores are in non-increasing order, and
the selected index sequence is ordered by strictly decreasing score with
ties broken by the lowest original flattened index. -/
theorem get_similar_questions_topk {α V : Type} [LinearOrderedField α]
    (m : EmbedModel α V) (embs : List V) (d : FaqData) (q : String) (k : Nat)
    (hlen : embs.length = (get_all_questions d).length) :
    (get_similar_questions (some m) (some embs) d q k).length
        = min k (get_all_questions d).length ∧
    List.Pairwise (fun x y : String × String × α => y.2.2 ≤ x.2.2)
      (get_similar_questions (some m) (some embs) d q k) ∧
    List.Pairwise (fun i j =>
        (embs.map (fun e => m.cosSim (m.enc q) e)).getD j 0
            < (embs.map (fun e => m.cosSim (m.enc q) e)).getD i 0 ∨
        ((embs.map (fun e => m.cosSim (m.enc q) e)).getD i 0
            = (embs.map (fun e => m.cosSim (m.enc q) e)).getD j 0 ∧ i < j))
      (topkIndices (embs.map (fun e => m.cosSim (m.enc q) e))
        (min k (embs.map (fun e => m.cosSim (m.enc q) e)).length)) := by
  have hN : (embs.map (fun e => m.cosSim (m.enc q) e)).length = (get_all_questions d).length := by
    rw [List.length_map]
    exact hlen
  have hcoh : ∀ p ∈ idxList 0 (embs.map (fun e => m.cosSim (m.enc q) e)),
      (embs.map (fun e => m.cosSim (m.enc q) e)).getD p.1 0 = p.2 := by
    intro p hp
    have h3 := (idxList_mem 0 (embs.map (fun e => m.cosSim (m.enc q) e)) 0 p hp).2.2
    simpa using h3
  have hbound : ∀ i ∈ topkIndices (embs.map (fun e => m.cosSim (m.enc q) e))
      (min k (embs.map (fun e => m.cosSim (m.enc q) e)).length), i < (get_all_questions d).length := by
    intro i hi
    obtain ⟨v, hv⟩ := selectTop_mem _ _ i hi
    have h2 := (idxList_mem 0 (embs.map (fun e => m.cosSim (m.enc q) e)) 0 (i, v) hv).2.1
    simp only [Nat.sub_zero] at h2
    rw [hN] at h2
    exact h2
  have hpair : List.Pairwise (fun i j =>
      (embs.map (fun e => m.cosSim (m.enc q) e)).getD j 0
          < (embs.map (fun e => m.cosSim (m.enc q) e)).getD i 0 ∨
      ((embs.map (fun e => m.cosSim (m.enc q) e)).getD i 0
          = (embs.map (fun e => m.cosSim (m.enc q) e)).getD j 0 ∧ i < j))
      (topkIndices (embs.map (fun e => m.cosSim (m.enc q) e))
        (min k (embs.map (fun e => m.cosSim (m.enc q) e)).length)) :=
    selectTop_pairwise (fun i => (embs.map (fun e => m.cosSim (m.enc q) e)).getD i 0) _ _
      (idxList_pairwise _ 0) hcoh
  have hmap : get_similar_questions (some m) (some embs) d q k
      = (topkIndices (embs.map (fun e => m.cosSim (m.enc q) e))
          (min k (embs.map (fun e => m.cosSim (m.enc q) e)).length)).map
        (fun i => (((get_all_questions d).getD i default).question,
          ((get_all_questions d).getD i default).answer,
          (embs.map (fun e => m.cosSim (m.enc q) e)).getD i 0)) := by
    simp only [get_similar_questions]
    exact filterMap_get_eq_map (get_all_questions d)
      (fun i qa => (qa.question, qa.answer, (embs.map (fun e => m.cosSim (m.enc q) e)).getD i 0))
      _ hbound
  refine ⟨?_, ?_, hpair⟩
  · rw [hmap, List.length_map, topkIndices, selectTop_length, idxList_length]
    rw [hN]
    omega
  · rw [hmap]
    apply List.pairwise_map.mpr
    refine hpair.imp ?_
    intro i j hij
    dsimp only
    rcases hij with hlt | ⟨heq, -⟩
    · exact le_of_lt hlt
    · exact le_of_eq heq.symm

/-- C6, witness: the top-k theorem applied at a concrete two-entry corpus
with an aligned two-vector cache and k = 5 (clamped to 2). -/
theorem get_similar_questions_topk_witness :
    (get_similar_questions (some constEnc) (some [(1 : ℚ), 1]) dTwoEntries "hey" 5).length
        = min 5 (get_all_questions dTwoEntries).length ∧
    List.Pairwise (fun x y : String × String × ℚ => y.2.2 ≤ x.2.2)
      (get_similar_questions (some constEnc) (some [(1 : ℚ), 1]) dTwoEntries "hey" 5) ∧
    List.Pairwise (fun i j =>
        (([(1 : ℚ), 1]).map (fun e => constEnc.cosSim (constEnc.enc "hey") e)).getD j 0
            < (([(1 : ℚ), 1]).map (fun e => constEnc.cosSim (constEnc.enc "hey") e)).getD i 0 ∨
        ((([(1 : ℚ), 1]).map (fun e => constEnc.cosSim (constEnc.enc "hey") e)).getD i 0
            = (([(1 : ℚ), 1]).map (fun e => constEnc.cosSim (constEnc.enc "hey") e)).getD j 0 ∧ i < j))
      (topkIndices (([(1 : ℚ), 1]).map (fun e => constEnc.cosSim (constEnc.enc "hey") e))
        (min 5 (([(1 : ℚ), 1]).map (fun e => constEnc.cosSim (constEnc.enc "hey") e)).length)) :=
  get_similar_questions_topk constEnc [1, 1] dTwoEntries "hey" 5 rfl

/-! ### Lemmas about the real cosine similarity -/

lemma dotList_nil_left (b : List ℝ) : dotList [] b = 0 := by simp [dotList]

lemma dotList_nil_right (a : List ℝ) : dotList a [] = 0 := by simp [dotList]

lemma dotList_cons (x y : ℝ) (xs ys : List ℝ) :
    dotList (x :: xs) (y :: ys) = x * y + dotList xs ys := by
  simp [dotList]

lemma dotList_self_nonneg (a : List ℝ) : 0 ≤ dotList a a := by
  induction a with
  | nil => simp [dotList]
  | cons x xs ih =>
    rw [dotList_cons]
    have := mul_self_nonneg x
    linarith

lemma dotList_left_zero (a : List ℝ) (h : dotList a a = 0) : ∀ b, dotList a b = 0 := by
  induction a with
  | nil => intro b; exact dotList_nil_left b
  | cons x xs ih =>
    intro b
    rw [dotList_cons x x xs xs] at h
    have h1 : x * x = 0 := by
      have := dotList_self_nonneg xs
      have := mul_self_nonneg x
      linarith
    have hx : x = 0 := mul_self_eq_zero.mp h1
    have h2 : dotList xs xs = 0 := by linarith
    cases b with
    | nil => exact dotList_nil_right _
    | cons y ys =>
      rw [dotList_cons, hx, ih h2 ys]
      ring

lemma dotList_comm (a : List ℝ) : ∀ b, dotList a b = dotList b a := by
  induction a with
  | nil => intro b; rw [dotList_nil_left, dotList_nil_right]
  | cons x xs ih =>
    intro b
    cases b with
    | nil => rw [dotList_nil_left, dotList_nil_right]
    | cons y ys => rw [dotList_cons, dotList_cons, mul_comm, ih ys]

lemma l2norm_zero_dot (a : List ℝ) (h : l2norm a = 0) : dotList a a = 0 := by
  rw [l2norm] at h
  exact (Real.sqrt_eq_zero (dotList_self_nonneg a)).mp h

/-! ### Claim C9 -/

/-- C9, counterexample: `torch.cosine_similarity` clamps the denominator
to `eps = 1e-8`, so for a pair of equal-length vectors with a tiny but
non-zero norm product (here `[2 ^ (-15)]` against itself, with norm
product `2 ^ (-30) < 1e-8`) the computed similarity differs from
`dot(a,b) / (norm(a) * norm(b))` — the claimed formula (embodied by
`specCosineSim`) would give 1. -/
theorem torch_cosine_eps_cex :
    torchCosineSim [(1/32768 : ℝ)] [(1/32768 : ℝ)]
      ≠ specCosineSim [(1/32768 : ℝ)] [(1/32768 : ℝ)] := by
  have hd : dotList [(1/32768 : ℝ)] [(1/32768 : ℝ)] = 1/1073741824 := by
    rw [show ([(1/32768 : ℝ)] : List ℝ) = (1/32768 : ℝ) :: [] from rfl]
    rw [dotList_cons, dotList_nil_left]
    norm_num
  have hn : l2norm [(1/32768 : ℝ)] = 1/32768 := by
    rw [l2norm, hd]
    rw [show (1/1073741824 : ℝ) = (1/32768 : ℝ)^2 by norm_num]
    exact Real.sqrt_sq (by norm_num)
  have hprod : l2norm [(1/32768 : ℝ)] * l2norm [(1/32768 : ℝ)] = 1/1073741824 := by
    rw [hn]
    norm_num
  have ht : torchCosineSim [(1/32768 : ℝ)] [(1/32768 : ℝ)]
      = (1/1073741824 : ℝ) / (1/100000000) := by
    rw [torchCosineSim, hd, hprod, max_eq_right (by norm_num)]
  have hs : specCosineSim [(1/32768 : ℝ)] [(1/32768 : ℝ)] = 1 := by
    rw [specCosineSim, if_neg (by rw [hn]; norm_num), hd, hprod]
    norm_num
  rw [ht, hs]
  norm_num

/-- C9, amended: the similarity both ranking paths use is
`torch.cosine_similarity`, i.e. `dot(a,b) / max(norm(a) * norm(b), eps)`
with `eps = 1e-8`.  It equals the claimed `dot(a,b)/(norm(a)*norm(b))`
whenever the norm product is at least `eps`, and it equals 0 (without any
division-by-zero failure) whenever either norm is zero; only for
`0 < norm(a)*norm(b) < eps` does it deviate from the claimed formula, as
the counterexample shows. -/
theorem torch_cosine_props (a b : List ℝ) :
    ((1/100000000 : ℝ) ≤ l2norm a * l2norm b →
        torchCosineSim a b = dotList a b / (l2norm a * l2norm b)) ∧
    ((l2norm a = 0 ∨ l2norm b = 0) → torchCosineSim a b = 0) := by
  constructor
  · intro h
    rw [torchCosineSim, max_eq_left h]
  · intro h
    rcases h with ha | hb
    · rw [torchCosineSim, dotList_left_zero a (l2norm_zero_dot a ha) b, zero_div]
    · rw [torchCosineSim, dotList_comm a b, dotList_left_zero b (l2norm_zero_dot b hb) a,
        zero_div]

/-- C9, witness: the amended theorem applied at the unit vector `[1]`,
whose norm product 1 clears the eps clamp, recovering the plain cosine
formula. -/
theorem torch_cosine_props_witness :
    (1/100000000 : ℝ) ≤ l2norm [(1 : ℝ)] * l2norm [(1 : ℝ)] ∧
    torchCosineSim [(1 : ℝ)] [(1 : ℝ)]
      = dotList [(1 : ℝ)] [(1 : ℝ)] / (l2norm [(1 : ℝ)] * l2norm [(1 : ℝ)]) := by
  have hd : dotList [(1 : ℝ)] [(1 : ℝ)] = 1 := by
    rw [show ([(1 : ℝ)] : List ℝ) = (1 : ℝ) :: [] from rfl]
    rw [dotList_cons, dotList_nil_left]
    norm_num
  have hn : l2norm [(1 : ℝ)] = 1 := by
    rw [l2norm, hd, Real.sqrt_one]
  have hge : (1/100000000 : ℝ) ≤ l2norm [(1 : ℝ)] * l2norm [(1 : ℝ)] := by
    rw [hn]
    norm_num
  exact ⟨hge, (torch_cosine_props [1] [1]).1 hge⟩

end PhotoAssistant
